import Mathlib

/-!
Shallow embedding of the loan-application eligibility core
(src/services/EligibilityService.ts and src/services/CrimeAgentService.ts).

JavaScript numbers are modelled as rationals (the spec stipulates real
arithmetic for the income division; every constant appearing in the claims is
exactly representable).  Strings handled character-by-character are modelled as
List Char; grades and fixed phrases stay Lean String.  The mutable grade cache
of CrimeAgentService is modelled by explicit state passing: the JavaScript Map
becomes an association list with JS-Map semantics (insertion order kept,
set replaces in place, delete removes).  Time (Date.now()) and the axios call
are explicit parameters, so every function is total: the resolver cannot raise.
-/

namespace LoanApp

/-! ## EligibilityService -/

structure LoanApplicationRequest where
  applicantName : String
  propertyAddress : String
  creditScore : ℚ
  monthlyIncome : ℚ
  requestedAmount : ℚ
  loanTermMonths : ℚ
deriving Repr

structure EligibilityChecks where
  creditScore : Bool
  income : Bool
  crimeGrade : Bool
deriving Repr, DecidableEq

structure EligibilityResult where
  eligible : Bool
  reason : String
  checks : EligibilityChecks
deriving Repr, DecidableEq

def MIN_CREDIT_SCORE : ℚ := 700

def INCOME_MULTIPLIER : ℚ := 1.5

def FAILING_CRIME_GRADE : String := "F"

/-- Embeds `EligibilityService.validateCreditScore`. -/
def validateCreditScore (creditScore : ℚ) : Bool :=
  creditScore ≥ MIN_CREDIT_SCORE

/-- Embeds `EligibilityService.validateIncome`. -/
def validateIncome (monthlyIncome requestedAmount loanTermMonths : ℚ) : Bool :=
  let monthlyPayment := requestedAmount / loanTermMonths
  let requiredIncome := monthlyPayment * INCOME_MULTIPLIER
  monthlyIncome > requiredIncome

/-- Embeds `EligibilityService.validateCrimeGrade`. -/
def validateCrimeGrade (crimeGrade : String) : Bool :=
  crimeGrade ≠ FAILING_CRIME_GRADE

/-- Embeds `EligibilityService.generateReason`: the conditional pushes onto the
`failedChecks` array become conditional singleton lists, joined with ", ". -/
def generateReason (checks : EligibilityChecks) (eligible : Bool) : String :=
  if eligible then "Passed all checks"
  else
    let failedChecks : List String :=
      (if checks.creditScore then [] else ["Credit score too low"]) ++
      (if checks.income then [] else ["Monthly income too low"]) ++
      (if checks.crimeGrade then [] else ["Property location has high crime rate"])
    String.intercalate (", ") failedChecks

/-- Embeds `EligibilityService.evaluateEligibility`. -/
def evaluateEligibility (application : LoanApplicationRequest) (crimeGrade : String) :
    EligibilityResult :=
  let checks : EligibilityChecks :=
    { creditScore := validateCreditScore application.creditScore
      income := validateIncome application.monthlyIncome application.requestedAmount
        application.loanTermMonths
      crimeGrade := validateCrimeGrade crimeGrade }
  let eligible := checks.creditScore && checks.income && checks.crimeGrade
  let reason := generateReason checks eligible
  { eligible := eligible, reason := reason, checks := checks }

/-! ## CrimeAgentService: address normalization

`normalizeAddress` is
`address.trim().toLowerCase().replace(/\s+/g, ' ').replace(/[^\w\s]/g, '')`:
trim first, then lowercase, then collapse whitespace runs to a single blank,
then strip every character that is neither a word character (JavaScript `\w`,
i.e. ASCII letters, digits, underscore) nor whitespace.  JavaScript
`toLowerCase` is modelled by `Char.toLower` (ASCII case mapping; every
character appearing in the claims is ASCII). -/

/-- The characters matched by the JavaScript regex class `\s`. -/
def jsWhitespaceChars : List Char :=
  [' ', '\t', '\n', '\r', '\x0b', '\x0c', '\u00A0', '\u1680', '\u2000', '\u2001',
   '\u2002', '\u2003', '\u2004', '\u2005', '\u2006', '\u2007', '\u2008', '\u2009',
   '\u200A', '\u2028', '\u2029', '\u202F', '\u205F', '\u3000', '\uFEFF']

def isJsSpace (c : Char) : Bool :=
  jsWhitespaceChars.contains c

/-- The characters matched by the JavaScript regex class `\w`. -/
def isWordChar (c : Char) : Bool :=
  (decide ('a' ≤ c) && decide (c ≤ 'z')) || (decide ('A' ≤ c) && decide (c ≤ 'Z'))
    || (decide ('0' ≤ c) && decide (c ≤ '9')) || c == '_'

def lowerList (l : List Char) : List Char :=
  l.map Char.toLower

/-- Removal of trailing whitespace (the tail half of `String.prototype.trim`). -/
def dropTrailingWs : List Char → List Char
  | [] => []
  | c :: rest =>
    match dropTrailingWs rest with
    | [] => if isJsSpace c then [] else [c]
    | d :: t => c :: d :: t

/-- Embeds `String.prototype.trim`: whitespace removed from both ends. -/
def trimJs (l : List Char) : List Char :=
  dropTrailingWs (l.dropWhile isJsSpace)

/-- Embeds `.replace(/\s+/g, ' ')`: each maximal run of whitespace becomes one blank.
The flag records whether we are inside a whitespace run whose blank was
already emitted. -/
def collapseWsAux : Bool → List Char → List Char
  | _, [] => []
  | inRun, c :: rest =>
    if isJsSpace c then
      if inRun then collapseWsAux true rest
      else ' ' :: collapseWsAux true rest
    else c :: collapseWsAux false rest

def collapseWs (l : List Char) : List Char :=
  collapseWsAux false l

/-- Embeds `.replace(/[^\w\s]/g, '')`. -/
def stripSpecial (l : List Char) : List Char :=
  l.filter (fun c => isWordChar c || isJsSpace c)

/-- Embeds `CrimeAgentService.normalizeAddress`. -/
def normalizeAddress (address : List Char) : List Char :=
  stripSpecial (collapseWs (lowerList (trimJs address)))

/-! ## CrimeAgentService: keyword classifier and hash -/

/-- Holds when `pat` is a prefix of `s` (character-wise). -/
def startsWithChars : List Char → List Char → Bool
  | [], _ => true
  | _ :: _, [] => false
  | p :: ps, c :: cs => p == c && startsWithChars ps cs

/-- Embeds `String.prototype.includes`: `pat` occurs contiguously inside `s`. -/
def includesStr : List Char → List Char → Bool
  | [], pat => startsWithChars pat []
  | c :: rest, pat => startsWithChars pat (c :: rest) || includesStr rest pat

def kwEastPaloAlto : List Char := ("east palo alto").data
def kwOaklandDowntown : List Char := ("oakland downtown").data
def kwTenderloin : List Char := ("tenderloin").data
def kwIndustrial : List Char := ("industrial").data
def kwWarehouse : List Char := ("warehouse").data
def kwSunnyvale : List Char := ("sunnyvale").data
def kwPaloAlto : List Char := ("palo alto").data
def kwCupertino : List Char := ("cupertino").data
def kwHills : List Char := ("hills").data
def kwPark : List Char := ("park").data
def kwGarden : List Char := ("garden").data
def kwSanJose : List Char := ("san jose").data
def kwFremont : List Char := ("fremont").data
def kwMountainView : List Char := ("mountain view").data
def kwDowntown : List Char := ("downtown").data
def kwCentral : List Char := ("central").data
def kwSanFrancisco : List Char := ("san francisco").data

/-- First guard of `simulateCrimeGrade` (known high-crime areas, grade F). -/
def matchesHighRisk (a : List Char) : Bool :=
  includesStr a kwEastPaloAlto || includesStr a kwOaklandDowntown
    || includesStr a kwTenderloin || includesStr a kwIndustrial
    || includesStr a kwWarehouse

/-- Second guard of `simulateCrimeGrade` (safe areas, grade A); `&&` binds
tighter than `||` exactly as in the JavaScript condition. -/
def matchesSafe (a : List Char) : Bool :=
  includesStr a kwSunnyvale
    || (includesStr a kwPaloAlto && !includesStr a kwEastPaloAlto)
    || includesStr a kwCupertino || includesStr a kwHills
    || includesStr a kwPark || includesStr a kwGarden

/-- Third guard of `simulateCrimeGrade` (moderate areas, grade B). -/
def matchesModerate (a : List Char) : Bool :=
  includesStr a kwSanJose || includesStr a kwFremont || includesStr a kwMountainView

/-- Fourth guard of `simulateCrimeGrade` (urban areas, grade D). -/
def matchesUrban (a : List Char) : Bool :=
  includesStr a kwDowntown || includesStr a kwCentral || includesStr a kwSanFrancisco

/-- JavaScript ToInt32: reduce modulo 2^32 into [-2^31, 2^31). -/
def toInt32 (n : ℤ) : ℤ :=
  (n + 2147483648) % 4294967296 - 2147483648

/-- One iteration of the loop of `simpleHash`:
`hash = ((hash << 5) - hash) + char; hash = hash & hash`.  The shift works on
int32; the subtraction and the addition of the UTF-16 code unit are exact; the
self-`&` truncates back to int32. -/
def simpleHashStep (hash : ℤ) (c : Char) : ℤ :=
  toInt32 (toInt32 (hash * 32) - hash + c.toNat)

/-- Embeds `CrimeAgentService.simpleHash` (with the final `Math.abs`). -/
def simpleHash (str : List Char) : ℕ :=
  (str.foldl simpleHashStep 0).natAbs

/-- The array `const grades = ['B', 'C', 'D', 'E']` of the hash fallback. -/
def fallbackGrades : List String := ["B", "C", "D", "E"]

/-- Embeds `CrimeAgentService.simulateCrimeGrade`. -/
def simulateCrimeGrade (normalizedAddress : List Char) : String :=
  let addressLower := lowerList normalizedAddress
  if matchesHighRisk addressLower then "F"
  else if matchesSafe addressLower then "A"
  else if matchesModerate addressLower then "B"
  else if matchesUrban addressLower then "D"
  else
    let hash := simpleHash normalizedAddress
    fallbackGrades.get ⟨hash % fallbackGrades.length, Nat.mod_lt _ (by decide)⟩

/-! ## CrimeAgentService: grade validation and external fetch -/

def DEFAULT_GRADE : String := "C"

def validGrades : List String := ["A", "B", "C", "D", "E", "F"]

/-- Embeds `String.prototype.toUpperCase`, character by character (ASCII case
mapping, which covers every grade value the claims mention). -/
def toUpperStr (s : String) : String :=
  ⟨s.data.map Char.toUpper⟩

/-- Embeds `CrimeAgentService.validateGrade`. -/
def validateGrade (grade : String) : String :=
  let upperGrade := toUpperStr grade
  if validGrades.contains upperGrade then upperGrade
  else DEFAULT_GRADE

/-- Outcome of the axios GET in `fetchCrimeGradeFromAPI`: the request either
throws (network error, timeout, non-2xx) or resolves; a resolved response may
or may not carry a truthy `data.grade` (`none` covers falsy `data` and absent
grade, `some ""` a present but falsy empty grade). -/
inductive ExternalResult where
  | failure (err : String)
  | response (grade : Option String)
deriving Repr, DecidableEq

/-- Embeds `CrimeAgentService.fetchCrimeGradeFromAPI`: a truthy `response.data.grade`
is validated; every other outcome (throw, falsy data or grade) falls through
to `simulateCrimeGrade`. -/
def fetchCrimeGradeFromAPI (ext : ExternalResult) (normalizedAddress : List Char) : String :=
  match ext with
  | .response (some g) =>
      if g.isEmpty then simulateCrimeGrade normalizedAddress else validateGrade g
  | .response none => simulateCrimeGrade normalizedAddress
  | .failure _ => simulateCrimeGrade normalizedAddress

/-! ## CrimeAgentService: grade cache and resolver

`private gradeCache: Map<string, { grade: string; timestamp: number }>` is
modelled by an association list with JavaScript `Map` semantics: `get` finds
the first matching key, `set` overwrites in place when the key is present and
appends otherwise, `delete` removes the entry, `size` is the entry count.
`Date.now()` is the explicit parameter `now`. -/

structure CacheEntry where
  grade : String
  timestamp : ℤ
deriving Repr, DecidableEq

structure CrimeAgentState where
  gradeCache : List (List Char × CacheEntry)
deriving Repr, DecidableEq

/-- The constant `CACHE_TTL = 24 * 60 * 60 * 1000` (24 hours in milliseconds). -/
def CACHE_TTL : ℤ := 24 * 60 * 60 * 1000

def mapGet (m : List (List Char × CacheEntry)) (k : List Char) : Option CacheEntry :=
  (m.find? (fun p => p.1 == k)).map (fun p => p.2)

def mapSet (m : List (List Char × CacheEntry)) (k : List Char) (v : CacheEntry) :
    List (List Char × CacheEntry) :=
  if (m.find? (fun p => p.1 == k)).isSome then
    m.map (fun p => if p.1 == k then (k, v) else p)
  else m ++ [(k, v)]

def mapDelete (m : List (List Char × CacheEntry)) (k : List Char) :
    List (List Char × CacheEntry) :=
  m.filter (fun p => !(p.1 == k))

/-- Embeds `CrimeAgentService.getCachedGrade`: a fresh entry is returned as is; an
expired entry is deleted and the lookup reports a miss. -/
def getCachedGrade (st : CrimeAgentState) (now : ℤ) (normalizedAddress : List Char) :
    Option String × CrimeAgentState :=
  match mapGet st.gradeCache normalizedAddress with
  | some cached =>
      if now - cached.timestamp < CACHE_TTL then (some cached.grade, st)
      else (none, ⟨mapDelete st.gradeCache normalizedAddress⟩)
  | none => (none, st)

/-- Embeds `CrimeAgentService.setCachedGrade`. -/
def setCachedGrade (st : CrimeAgentState) (now : ℤ) (normalizedAddress : List Char)
    (grade : String) : CrimeAgentState :=
  ⟨mapSet st.gradeCache normalizedAddress ⟨grade, now⟩⟩

/-- Embeds `CrimeAgentService.getCrimeGrade`.  The body of the JavaScript `try` block
is total in this model (normalization, cache access and the modelled fetch
cannot throw), so the `catch` branch returning `getFallbackGrade` is
unreachable and the function never raises to its caller.  The
`if (cachedResult)` truthiness test of the source makes a cached empty-string
grade fall through to recomputation, hence the `isEmpty` test. -/
def getCrimeGrade (st : CrimeAgentState) (now : ℤ) (ext : ExternalResult)
    (address : List Char) : String × CrimeAgentState :=
  let normalizedAddress := normalizeAddress address
  let cached := getCachedGrade st now normalizedAddress
  match cached.1 with
  | some g =>
      if g.isEmpty then
        let grade := fetchCrimeGradeFromAPI ext normalizedAddress
        (grade, setCachedGrade cached.2 now normalizedAddress grade)
      else (g, cached.2)
  | none =>
      let grade := fetchCrimeGradeFromAPI ext normalizedAddress
      (grade, setCachedGrade cached.2 now normalizedAddress grade)

/-- Embeds `CrimeAgentService.getFallbackGrade` (defensive catch-all; unreachable in
the model, see `getCrimeGrade`). -/
def getFallbackGrade (_address : List Char) : String :=
  DEFAULT_GRADE

/-- Embeds `CrimeAgentService.clearCache`. -/
def clearCache (_st : CrimeAgentState) : CrimeAgentState :=
  ⟨[]⟩

/-- Embeds `CrimeAgentService.getCacheSize`. -/
def getCacheSize (st : CrimeAgentState) : ℕ :=
  st.gradeCache.length

/-- Invariant: every grade stored in the cache is one of the six letters. -/
def ValidCacheState (st : CrimeAgentState) : Prop :=
  ∀ p ∈ st.gradeCache, p.2.grade ∈ validGrades

/-- No two adjacent characters of the list are both whitespace. -/
def NoAdjSp : List Char → Prop
  | [] => True
  | [_] => True
  | a :: b :: t => ¬(isJsSpace a = true ∧ isJsSpace b = true) ∧ NoAdjSp (b :: t)

/-! ## Claims C1, C3, C8, C10 -/

/-- C1: for every application and crime grade, `evaluateEligibility` returns
`eligible = (creditScore ≥ 700) && (monthlyIncome > requestedAmount / loanTermMonths * 1.5)
&& (crimeGrade ≠ "F")`, with the three check booleans of the result equal to
these three predicates respectively. -/
theorem evaluateEligibility_spec (app : LoanApplicationRequest) (crimeGrade : String) :
    (evaluateEligibility app crimeGrade).checks.creditScore
        = decide (app.creditScore ≥ 700)
    ∧ (evaluateEligibility app crimeGrade).checks.income
        = decide (app.monthlyIncome > app.requestedAmount / app.loanTermMonths * 1.5)
    ∧ (evaluateEligibility app crimeGrade).checks.crimeGrade
        = decide (crimeGrade ≠ "F")
    ∧ (evaluateEligibility app crimeGrade).eligible
        = (decide (app.creditScore ≥ 700)
            && decide (app.monthlyIncome > app.requestedAmount / app.loanTermMonths * 1.5)
            && decide (crimeGrade ≠ "F")) := by
  refine ⟨rfl, rfl, rfl, rfl⟩

/-- C3: the reason is the fixed string "Passed all checks" when eligible, and
otherwise the ", "-join of the fixed phrases of the failed checks in the fixed
order [credit, income, crime]; when all three checks fail it is exactly
"Credit score too low, Monthly income too low, Property location has high crime rate". -/
theorem evaluateEligibility_reason_spec (app : LoanApplicationRequest) (crimeGrade : String) :
    ((evaluateEligibility app crimeGrade).eligible = true →
      (evaluateEligibility app crimeGrade).reason = "Passed all checks")
    ∧ ((evaluateEligibility app crimeGrade).eligible = false →
      (evaluateEligibility app crimeGrade).reason = String.intercalate (", ")
        ((if (evaluateEligibility app crimeGrade).checks.creditScore then []
            else ["Credit score too low"]) ++
         (if (evaluateEligibility app crimeGrade).checks.income then []
            else ["Monthly income too low"]) ++
         (if (evaluateEligibility app crimeGrade).checks.crimeGrade then []
            else ["Property location has high crime rate"])))
    ∧ ((evaluateEligibility app crimeGrade).checks.creditScore = false →
       (evaluateEligibility app crimeGrade).checks.income = false →
       (evaluateEligibility app crimeGrade).checks.crimeGrade = false →
      (evaluateEligibility app crimeGrade).reason =
        "Credit score too low, Monthly income too low, Property location has high crime rate") := by
  simp only [evaluateEligibility, generateReason]
  constructor
  · intro h
    simp only [h, if_true]
  constructor
  · intro h
    simp only [h, Bool.false_eq_true, if_false]
  · intro h1 h2 h3
    simp only [h1, h2, h3, Bool.false_and, Bool.and_false, Bool.false_eq_true, if_false,
      Bool.false_eq_true, if_false]
    rfl

/-- Witness for C3: a concrete application failing all three checks yields the
exact combined reason string. -/
theorem evaluateEligibility_reason_spec_witness :
    (evaluateEligibility
        { applicantName := "John Doe", propertyAddress := "1 Main St",
          creditScore := 650, monthlyIncome := 1000,
          requestedAmount := 150000, loanTermMonths := 24 } "F").reason =
      "Credit score too low, Monthly income too low, Property location has high crime rate" := by
  refine (evaluateEligibility_reason_spec _ _).2.2 ?_ ?_ ?_
  · simp [evaluateEligibility, validateCreditScore, MIN_CREDIT_SCORE]
    norm_num
  · simp [evaluateEligibility, validateIncome, INCOME_MULTIPLIER]
    norm_num
  · simp [evaluateEligibility, validateCrimeGrade, FAILING_CRIME_GRADE]

/-- C8: income-check boundary: with requestedAmount 150000 and loanTermMonths 24
the required income is exactly 9375; monthlyIncome 9375 fails (strict) and 9376
passes. -/
theorem validateIncome_boundary :
    (150000 : ℚ) / 24 * 1.5 = 9375
    ∧ validateIncome 9375 150000 24 = false
    ∧ validateIncome 9376 150000 24 = true := by
  refine ⟨by norm_num, ?_, ?_⟩
  · simp [validateIncome, INCOME_MULTIPLIER]
    norm_num
  · simp [validateIncome, INCOME_MULTIPLIER]
    norm_num


/-- C10: the crime check is the exact string inequality with "F": it is false
exactly on the string "F"; in particular lowercase "f" and the out-of-range "Z"
pass. -/
theorem validateCrimeGrade_exact_F :
    (∀ g : String, validateCrimeGrade g = false ↔ g = "F")
    ∧ validateCrimeGrade "f" = true
    ∧ validateCrimeGrade "Z" = true
    ∧ validateCrimeGrade "F" = false := by
  refine ⟨fun g => ?_, by decide, by decide, by decide⟩
  simp [validateCrimeGrade, FAILING_CRIME_GRADE]

/-! ## Cache helper lemmas -/

theorem contains_validGrades_iff (s : String) :
    validGrades.contains s = true ↔ s ∈ validGrades := by
  simp [List.contains_iff_exists_mem_beq]

theorem find?_map_replace (m : List (List Char × CacheEntry)) (k : List Char) (v : CacheEntry)
    (h : (m.find? (fun p => p.1 == k)).isSome) :
    List.find? (fun p => p.1 == k) (m.map (fun p => if p.1 == k then (k, v) else p))
      = some (k, v) := by
  induction m with
  | nil => simp at h
  | cons q m ih =>
    by_cases hq : (q.1 == k) = true
    · simp only [List.map_cons, if_pos hq]
      exact List.find?_cons_of_pos _ (by simp)
    · rw [@List.find?_cons_of_neg _ (fun p => p.1 == k) q m hq] at h
      simp only [List.map_cons, if_neg hq]
      rw [@List.find?_cons_of_neg _ (fun p => p.1 == k) q
        (m.map (fun p => if p.1 == k then (k, v) else p)) hq]
      exact ih h

theorem mapGet_mapSet_self (m : List (List Char × CacheEntry)) (k : List Char) (v : CacheEntry) :
    mapGet (mapSet m k v) k = some v := by
  unfold mapGet mapSet
  by_cases h : (m.find? (fun p => p.1 == k)).isSome
  · rw [if_pos h, find?_map_replace m k v h]
    rfl
  · rw [if_neg h, List.find?_append, Option.not_isSome_iff_eq_none.mp h,
      List.find?_cons_of_pos _ (by simp)]
    rfl

theorem mapGet_mapDelete_self (m : List (List Char × CacheEntry)) (k : List Char) :
    mapGet (mapDelete m k) k = none := by
  unfold mapGet mapDelete
  rw [Option.map_eq_none', List.find?_eq_none]
  intro x hx
  simpa using (List.mem_filter.mp hx).2

theorem mem_of_mem_mapSet {m : List (List Char × CacheEntry)} {k : List Char} {v : CacheEntry}
    {p : List Char × CacheEntry} (h : p ∈ mapSet m k v) : p ∈ m ∨ p = (k, v) := by
  unfold mapSet at h
  split at h
  · obtain ⟨q, hq, rfl⟩ := List.mem_map.mp h
    by_cases hqk : (q.1 == k) = true
    · right; simp [hqk]
    · left; simpa [hqk] using hq
  · rcases List.mem_append.mp h with h | h
    · left; exact h
    · right; simpa using h

theorem mem_of_mapGet_some {m : List (List Char × CacheEntry)} {k : List Char} {e : CacheEntry}
    (h : mapGet m k = some e) : ∃ p ∈ m, p.2 = e := by
  unfold mapGet at h
  obtain ⟨p, hp, hpe⟩ := Option.map_eq_some'.mp h
  exact ⟨p, List.mem_of_find?_eq_some hp, hpe⟩

theorem mapGet_append_single {m : List (List Char × CacheEntry)} {k : List Char} {v : CacheEntry}
    (h : mapGet m k = none) : mapGet (m ++ [(k, v)]) k = some v := by
  unfold mapGet at h ⊢
  rw [List.find?_append, Option.map_eq_none'.mp h]
  simp [List.find?]

/-! ## Grade validity lemmas -/

theorem simulateCrimeGrade_valid (a : List Char) : simulateCrimeGrade a ∈ validGrades := by
  have hsub : ∀ x ∈ fallbackGrades, x ∈ validGrades := by decide
  unfold simulateCrimeGrade
  dsimp only
  split
  · decide
  split
  · decide
  split
  · decide
  split
  · decide
  · exact hsub _ (List.get_mem _ _ _)

theorem validateGrade_valid (g : String) : validateGrade g ∈ validGrades := by
  unfold validateGrade
  dsimp only
  split
  · next h => exact (contains_validGrades_iff _).mp h
  · decide

theorem fetchCrimeGradeFromAPI_valid (ext : ExternalResult) (na : List Char) :
    fetchCrimeGradeFromAPI ext na ∈ validGrades := by
  unfold fetchCrimeGradeFromAPI
  rcases ext with e | g
  · exact simulateCrimeGrade_valid na
  · rcases g with _ | g
    · exact simulateCrimeGrade_valid na
    · dsimp only
      split
      · exact simulateCrimeGrade_valid na
      · exact validateGrade_valid g

theorem validGrades_not_empty {g : String} (h : g ∈ validGrades) : g.isEmpty = false := by
  fin_cases h <;> decide

/-! ## Resolver shape lemmas -/

theorem getCachedGrade_of_mapGet_none {st : CrimeAgentState} {now : ℤ} {na : List Char}
    (h : mapGet st.gradeCache na = none) : getCachedGrade st now na = (none, st) := by
  unfold getCachedGrade
  rw [h]

theorem getCachedGrade_of_fresh {st : CrimeAgentState} {now : ℤ} {na : List Char} {e : CacheEntry}
    (h : mapGet st.gradeCache na = some e) (hf : now - e.timestamp < CACHE_TTL) :
    getCachedGrade st now na = (some e.grade, st) := by
  unfold getCachedGrade
  rw [h]
  simp [hf]

theorem getCachedGrade_of_expired {st : CrimeAgentState} {now : ℤ} {na : List Char} {e : CacheEntry}
    (h : mapGet st.gradeCache na = some e) (hf : CACHE_TTL ≤ now - e.timestamp) :
    getCachedGrade st now na = (none, ⟨mapDelete st.gradeCache na⟩) := by
  unfold getCachedGrade
  rw [h]
  simp [not_lt.mpr hf]

theorem getCachedGrade_some_inv {st : CrimeAgentState} {now : ℤ} {na : List Char} {g : String}
    (h : (getCachedGrade st now na).1 = some g) :
    ∃ e, mapGet st.gradeCache na = some e ∧ e.grade = g ∧ now - e.timestamp < CACHE_TTL
      ∧ (getCachedGrade st now na).2 = st := by
  cases hm : mapGet st.gradeCache na with
  | none =>
    rw [getCachedGrade_of_mapGet_none hm] at h
    simp at h
  | some e =>
    by_cases hf : now - e.timestamp < CACHE_TTL
    · rw [getCachedGrade_of_fresh hm hf] at h
      refine ⟨e, rfl, ?_, hf, ?_⟩
      · simpa using h
      · rw [getCachedGrade_of_fresh hm hf]
    · rw [getCachedGrade_of_expired hm (not_lt.mp hf)] at h
      simp at h

theorem getCachedGrade_snd_cases (st : CrimeAgentState) (now : ℤ) (na : List Char) :
    (getCachedGrade st now na).2 = st
      ∨ (getCachedGrade st now na).2 = ⟨mapDelete st.gradeCache na⟩ := by
  unfold getCachedGrade
  cases mapGet st.gradeCache na with
  | none => left; rfl
  | some e =>
    dsimp only
    split
    · left; rfl
    · right; rfl

theorem getCrimeGrade_eq_hit {st : CrimeAgentState} {now : ℤ} {ext : ExternalResult}
    {a : List Char} {g : String}
    (h : (getCachedGrade st now (normalizeAddress a)).1 = some g) (hne : g.isEmpty = false) :
    getCrimeGrade st now ext a = (g, (getCachedGrade st now (normalizeAddress a)).2) := by
  simp only [getCrimeGrade]
  rw [h]
  simp [hne]

theorem getCrimeGrade_eq_miss {st : CrimeAgentState} {now : ℤ} {ext : ExternalResult}
    {a : List Char}
    (h : (getCachedGrade st now (normalizeAddress a)).1 = none) :
    getCrimeGrade st now ext a
      = (fetchCrimeGradeFromAPI ext (normalizeAddress a),
         setCachedGrade (getCachedGrade st now (normalizeAddress a)).2 now
           (normalizeAddress a) (fetchCrimeGradeFromAPI ext (normalizeAddress a))) := by
  simp only [getCrimeGrade]
  rw [h]

theorem getCrimeGrade_eq_emptyhit {st : CrimeAgentState} {now : ℤ} {ext : ExternalResult}
    {a : List Char} {g : String}
    (h : (getCachedGrade st now (normalizeAddress a)).1 = some g) (hne : g.isEmpty = true) :
    getCrimeGrade st now ext a
      = (fetchCrimeGradeFromAPI ext (normalizeAddress a),
         setCachedGrade (getCachedGrade st now (normalizeAddress a)).2 now
           (normalizeAddress a) (fetchCrimeGradeFromAPI ext (normalizeAddress a))) := by
  simp only [getCrimeGrade]
  rw [h]
  simp [hne]

theorem setCachedGrade_absent {st : CrimeAgentState} {now : ℤ} {na : List Char} {g : String}
    (h : mapGet st.gradeCache na = none) :
    setCachedGrade st now na g = ⟨st.gradeCache ++ [(na, ⟨g, now⟩)]⟩ := by
  unfold setCachedGrade mapSet
  have hf : st.gradeCache.find? (fun p => p.1 == na) = none := by
    unfold mapGet at h
    exact Option.map_eq_none'.mp h
  rw [if_neg (by rw [hf]; simp)]

theorem validCacheState_delete {st : CrimeAgentState} {na : List Char}
    (h : ValidCacheState st) : ValidCacheState ⟨mapDelete st.gradeCache na⟩ := by
  intro p hp
  exact h p (List.mem_filter.mp hp).1

theorem validCacheState_getCachedGrade {st : CrimeAgentState} {now : ℤ} {na : List Char}
    (h : ValidCacheState st) : ValidCacheState (getCachedGrade st now na).2 := by
  rcases getCachedGrade_snd_cases st now na with hc | hc <;> rw [hc]
  · exact h
  · exact validCacheState_delete h

theorem validCacheState_set {st : CrimeAgentState} {now : ℤ} {na : List Char} {g : String}
    (h : ValidCacheState st) (hg : g ∈ validGrades) :
    ValidCacheState (setCachedGrade st now na g) := by
  intro p hp
  rcases mem_of_mem_mapSet hp with hp | rfl
  · exact h p hp
  · exact hg

/-! ## Claim C2 -/

/-- C2: the resolver always returns one of the six letters A–F (it is a total
function in this model, hence never raises): starting from a cache whose
entries are valid grades, `getCrimeGrade` returns a valid grade and preserves
the invariant; an external grade value is upper-cased and checked against the
six letters, an invalid one being replaced by the fallback grade C
(`DEFAULT_GRADE`). -/
theorem getCrimeGrade_always_valid :
    (∀ g : String, validateGrade g ∈ validGrades
        ∧ (toUpperStr g ∈ validGrades → validateGrade g = toUpperStr g)
        ∧ (toUpperStr g ∉ validGrades → validateGrade g = DEFAULT_GRADE))
    ∧ (∀ (st : CrimeAgentState) (now : ℤ) (ext : ExternalResult) (address : List Char),
        ValidCacheState st →
          (getCrimeGrade st now ext address).1 ∈ validGrades
          ∧ ValidCacheState (getCrimeGrade st now ext address).2) := by
  constructor
  · intro g
    refine ⟨validateGrade_valid g, fun h => ?_, fun h => ?_⟩
    · unfold validateGrade
      rw [if_pos ((contains_validGrades_iff _).mpr h)]
    · unfold validateGrade
      rw [if_neg (fun hc => h ((contains_validGrades_iff _).mp hc))]
  · intro st now ext address hst
    cases h1 : (getCachedGrade st now (normalizeAddress address)).1 with
    | none =>
      rw [getCrimeGrade_eq_miss h1]
      exact ⟨fetchCrimeGradeFromAPI_valid _ _,
        validCacheState_set (validCacheState_getCachedGrade hst)
          (fetchCrimeGradeFromAPI_valid _ _)⟩
    | some g =>
      by_cases he : g.isEmpty
      · rw [getCrimeGrade_eq_emptyhit h1 he]
        exact ⟨fetchCrimeGradeFromAPI_valid _ _,
          validCacheState_set (validCacheState_getCachedGrade hst)
            (fetchCrimeGradeFromAPI_valid _ _)⟩
      · rw [getCrimeGrade_eq_hit h1 (by simpa using he)]
        obtain ⟨e, hm, he', _, hsnd⟩ := getCachedGrade_some_inv h1
        obtain ⟨p, hp, hpe⟩ := mem_of_mapGet_some hm
        refine ⟨?_, by rw [hsnd]; exact hst⟩
        have := hst p hp
        rw [hpe, he'] at this
        exact this

/-- Witness for C2: on the empty cache, an external response carrying the
invalid grade value "junk" still yields a valid letter, and `validateGrade`
maps "junk" to the fallback grade. -/
theorem getCrimeGrade_always_valid_witness :
    validateGrade ("junk") = DEFAULT_GRADE
    ∧ (getCrimeGrade ⟨[]⟩ 0 (.response (some ("junk"))) (("x").data)).1 ∈ validGrades := by
  constructor
  · exact (getCrimeGrade_always_valid.1 ("junk")).2.2 (by decide)
  · exact (getCrimeGrade_always_valid.2 ⟨[]⟩ 0 (.response (some ("junk"))) (("x").data)
      (fun p hp => by simp at hp)).1

/-! ## Claim C5 -/

/-- C5: cache contract of the resolver.  A stored entry younger than 24 hours
is returned untouched with no recomputation (the result does not depend on the
external oracle and the state is unchanged); an entry aged 24 hours or more is
deleted and the lookup is a miss, so the grade is recomputed; a first
resolution for an address absent from the cache grows the cache by exactly
one entry, and a second resolution of the same (or equivalently-normalized)
address before expiry returns the identical grade without growing the cache. -/
theorem getCrimeGrade_cache_contract (st : CrimeAgentState) (now : ℤ) (ext : ExternalResult)
    (address : List Char) :
    (∀ e : CacheEntry, mapGet st.gradeCache (normalizeAddress address) = some e →
        e.grade.isEmpty = false → now - e.timestamp < CACHE_TTL →
        getCrimeGrade st now ext address = (e.grade, st))
    ∧ (∀ e : CacheEntry, mapGet st.gradeCache (normalizeAddress address) = some e →
        CACHE_TTL ≤ now - e.timestamp →
        getCachedGrade st now (normalizeAddress address)
            = (none, ⟨mapDelete st.gradeCache (normalizeAddress address)⟩)
          ∧ (getCrimeGrade st now ext address).1
            = fetchCrimeGradeFromAPI ext (normalizeAddress address))
    ∧ (mapGet st.gradeCache (normalizeAddress address) = none →
        getCacheSize (getCrimeGrade st now ext address).2 = getCacheSize st + 1
        ∧ ∀ (now₂ : ℤ) (ext₂ : ExternalResult) (address₂ : List Char),
            normalizeAddress address₂ = normalizeAddress address →
            now₂ - now < CACHE_TTL →
            getCrimeGrade (getCrimeGrade st now ext address).2 now₂ ext₂ address₂
              = ((getCrimeGrade st now ext address).1,
                 (getCrimeGrade st now ext address).2)) := by
  refine ⟨?_, ?_, ?_⟩
  · intro e hm hne hf
    have hc := getCachedGrade_of_fresh hm hf
    have h1 : (getCachedGrade st now (normalizeAddress address)).1 = some e.grade := by
      rw [hc]
    rw [getCrimeGrade_eq_hit h1 hne, hc]
  · intro e hm hf
    have hc := getCachedGrade_of_expired hm hf
    have h1 : (getCachedGrade st now (normalizeAddress address)).1 = none := by rw [hc]
    exact ⟨hc, by rw [getCrimeGrade_eq_miss h1]⟩
  · intro hm
    have hc := @getCachedGrade_of_mapGet_none st now (normalizeAddress address) hm
    have h1 : (getCachedGrade st now (normalizeAddress address)).1 = none := by rw [hc]
    have hrun : getCrimeGrade st now ext address
        = (fetchCrimeGradeFromAPI ext (normalizeAddress address),
           ⟨st.gradeCache ++ [(normalizeAddress address,
              ⟨fetchCrimeGradeFromAPI ext (normalizeAddress address), now⟩)]⟩) := by
      rw [getCrimeGrade_eq_miss h1, hc]
      rw [setCachedGrade_absent hm]
    constructor
    · rw [hrun]
      simp [getCacheSize]
    · intro now₂ ext₂ address₂ hna hf₂
      rw [hrun]
      have hm₂ : mapGet (st.gradeCache ++ [(normalizeAddress address,
          ⟨fetchCrimeGradeFromAPI ext (normalizeAddress address), now⟩)])
            (normalizeAddress address₂)
          = some ⟨fetchCrimeGradeFromAPI ext (normalizeAddress address), now⟩ := by
        rw [hna]
        exact mapGet_append_single hm
      have hfresh : now₂ - (⟨fetchCrimeGradeFromAPI ext (normalizeAddress address), now⟩ :
          CacheEntry).timestamp < CACHE_TTL := hf₂
      have hcc := getCachedGrade_of_fresh hm₂ hfresh
      have h1₂ : (getCachedGrade ⟨st.gradeCache ++ [(normalizeAddress address,
          ⟨fetchCrimeGradeFromAPI ext (normalizeAddress address), now⟩)]⟩ now₂
            (normalizeAddress address₂)).1
          = some (fetchCrimeGradeFromAPI ext (normalizeAddress address)) := by
        rw [hcc]
      rw [getCrimeGrade_eq_hit h1₂
        (validGrades_not_empty (fetchCrimeGradeFromAPI_valid _ _)), hcc]

/-- Witness for C5: a fresh entry is served from the cache unchanged, and a
first-plus-second resolution of an uncached address grows the cache once and
then hits it. -/
theorem getCrimeGrade_cache_contract_witness :
    getCrimeGrade ⟨[((("x").data), ⟨"B", 0⟩)]⟩ 5 (.failure ("down")) (("x").data)
        = ("B", ⟨[((("x").data), ⟨"B", 0⟩)]⟩)
    ∧ getCacheSize (getCrimeGrade ⟨[]⟩ 0 (.failure ("down")) (("1 Oak St").data)).2 = 1
    ∧ getCrimeGrade (getCrimeGrade ⟨[]⟩ 0 (.failure ("down")) (("1 Oak St").data)).2 0
          (.failure ("down")) (("1 Oak St").data)
        = ((getCrimeGrade ⟨[]⟩ 0 (.failure ("down")) (("1 Oak St").data)).1,
           (getCrimeGrade ⟨[]⟩ 0 (.failure ("down")) (("1 Oak St").data)).2) := by
  refine ⟨?_, ?_, ?_⟩
  · exact (getCrimeGrade_cache_contract ⟨[((("x").data), ⟨"B", 0⟩)]⟩ 5 (.failure ("down"))
      (("x").data)).1 ⟨"B", 0⟩ (by decide) (by decide) (by decide)
  · exact ((getCrimeGrade_cache_contract ⟨[]⟩ 0 (.failure ("down"))
      (("1 Oak St").data)).2.2 (by decide)).1
  · exact ((getCrimeGrade_cache_contract ⟨[]⟩ 0 (.failure ("down"))
      (("1 Oak St").data)).2.2 (by decide)).2 0 (.failure ("down")) (("1 Oak St").data) rfl
      (by decide)

/-! ## Claim C9 -/

/-- After any resolution, the resulting cache holds a fresh, non-empty entry
for the normalized address whose grade is the returned grade. -/
theorem getCrimeGrade_after (st : CrimeAgentState) (now : ℤ) (ext : ExternalResult)
    (a : List Char) :
    ∃ t : ℤ, mapGet ((getCrimeGrade st now ext a).2).gradeCache (normalizeAddress a)
          = some ⟨(getCrimeGrade st now ext a).1, t⟩
      ∧ now - t < CACHE_TTL
      ∧ ((getCrimeGrade st now ext a).1).isEmpty = false := by
  have httl : (0 : ℤ) < CACHE_TTL := by norm_num [CACHE_TTL]
  cases h1 : (getCachedGrade st now (normalizeAddress a)).1 with
  | none =>
    rw [getCrimeGrade_eq_miss h1]
    refine ⟨now, ?_, by omega, validGrades_not_empty (fetchCrimeGradeFromAPI_valid _ _)⟩
    exact mapGet_mapSet_self _ _ _
  | some g =>
    by_cases he : g.isEmpty
    · rw [getCrimeGrade_eq_emptyhit h1 he]
      refine ⟨now, ?_, by omega, validGrades_not_empty (fetchCrimeGradeFromAPI_valid _ _)⟩
      exact mapGet_mapSet_self _ _ _
    · rw [getCrimeGrade_eq_hit h1 (by simpa using he)]
      obtain ⟨e, hm, hge, hf, hsnd⟩ := getCachedGrade_some_inv h1
      refine ⟨e.timestamp, ?_, hf, by simpa [hge] using he⟩
      rw [hsnd]
      dsimp only
      rw [hm, ← hge]

/-- C9: resolution and evaluation are deterministic given their inputs and the
cache state: with the external path unavailable the resolver's outcome does not
depend on which failure occurred; re-running the resolver from the state it
just produced, at the same instant, returns the same grade and leaves the
cache unchanged (idempotence); and `evaluateEligibility` is a pure function of
the application and grade. -/
theorem resolver_deterministic :
    (∀ (st : CrimeAgentState) (now : ℤ) (a : List Char) (err₁ err₂ : String),
        getCrimeGrade st now (.failure err₁) a = getCrimeGrade st now (.failure err₂) a)
    ∧ (∀ (st : CrimeAgentState) (now : ℤ) (ext : ExternalResult) (a : List Char),
        getCrimeGrade (getCrimeGrade st now ext a).2 now ext a = getCrimeGrade st now ext a)
    ∧ (∀ (app : LoanApplicationRequest) (g : String),
        evaluateEligibility app g = evaluateEligibility app g) := by
  refine ⟨fun st now a err₁ err₂ => rfl, fun st now ext a => ?_, fun app g => rfl⟩
  obtain ⟨t, hm, hf, hne⟩ := getCrimeGrade_after st now ext a
  have hcc := getCachedGrade_of_fresh hm hf
  have h1 : (getCachedGrade (getCrimeGrade st now ext a).2 now (normalizeAddress a)).1
      = some (getCrimeGrade st now ext a).1 := by rw [hcc]
  rw [getCrimeGrade_eq_hit h1 hne, hcc]

/-! ## Claims C6 and C7 -/

theorem startsWithChars_iff (p s : List Char) :
    startsWithChars p s = true ↔ p <+: s := by
  induction p generalizing s with
  | nil => simp [startsWithChars]
  | cons a ps ih =>
    cases s with
    | nil => simp [startsWithChars]
    | cons c cs =>
      simp [startsWithChars, List.cons_prefix_cons, ih, Bool.and_eq_true, beq_iff_eq]

theorem includesStr_iff (s p : List Char) :
    includesStr s p = true ↔ p <:+: s := by
  induction s with
  | nil =>
    simp [includesStr, startsWithChars_iff, List.infix_nil, List.prefix_nil]
  | cons c cs ih =>
    simp only [includesStr, Bool.or_eq_true, startsWithChars_iff, ih, List.infix_cons_iff]

/-- C6: the high-risk keyword test is evaluated before the low-risk one, so a
normalized address containing "east palo alto" is graded F although it also
contains the low-risk keyword "palo alto" (the negative-keyword exception). -/
theorem simulateCrimeGrade_east_palo_alto (a : List Char)
    (h : includesStr a kwEastPaloAlto = true) :
    simulateCrimeGrade a = "F" ∧ includesStr a kwPaloAlto = true := by
  have hinf : kwEastPaloAlto <:+: a := (includesStr_iff _ _).mp h
  constructor
  · have hlow : includesStr (lowerList a) kwEastPaloAlto = true := by
      apply (includesStr_iff _ _).mpr
      have hmap := List.IsInfix.map Char.toLower hinf
      rw [show List.map Char.toLower kwEastPaloAlto = kwEastPaloAlto from by decide] at hmap
      exact hmap
    unfold simulateCrimeGrade
    simp [matchesHighRisk, hlow]
  · exact (includesStr_iff _ _).mpr
      (((includesStr_iff _ _).mp (show includesStr kwEastPaloAlto kwPaloAlto = true by decide)).trans
        hinf)

/-- Witness for C6: a concrete address containing "east palo alto". -/
theorem simulateCrimeGrade_east_palo_alto_witness :
    simulateCrimeGrade (("99 east palo alto blvd").data) = "F"
    ∧ includesStr (("99 east palo alto blvd").data) kwPaloAlto = true :=
  simulateCrimeGrade_east_palo_alto (("99 east palo alto blvd").data) (by decide)

/-- C7: on a normalized address matching none of the four keyword sets, the
classifier computes the deterministic string hash and maps it modulo 4 over
the ordered grade list ["B", "C", "D", "E"]; the result is therefore always
one of these four intermediate grades (and, being a pure function of the
address, identical across repeated calls). -/
theorem simulateCrimeGrade_hash_fallback (a : List Char)
    (h1 : matchesHighRisk (lowerList a) = false)
    (h2 : matchesSafe (lowerList a) = false)
    (h3 : matchesModerate (lowerList a) = false)
    (h4 : matchesUrban (lowerList a) = false) :
    simulateCrimeGrade a = fallbackGrades.getD (simpleHash a % 4) (DEFAULT_GRADE)
    ∧ simulateCrimeGrade a ∈ fallbackGrades := by
  have hlen : simpleHash a % 4 < fallbackGrades.length := Nat.mod_lt _ (by decide)
  have hs : simulateCrimeGrade a
      = fallbackGrades.get ⟨simpleHash a % fallbackGrades.length, Nat.mod_lt _ (by decide)⟩ := by
    unfold simulateCrimeGrade
    simp only [h1, h2, h3, h4, Bool.false_eq_true, if_false]
  refine ⟨?_, ?_⟩
  · rw [hs, List.get_eq_getElem, List.getD_eq_getElem _ _ hlen]
    rfl
  · rw [hs]
    exact List.get_mem _ _ _

set_option maxRecDepth 100000

/-- Witness for C7: "42 arbitrary lane" matches no keyword set and receives
its hash-selected intermediate grade. -/
theorem simulateCrimeGrade_hash_fallback_witness :
    simulateCrimeGrade (("42 arbitrary lane").data)
        = fallbackGrades.getD (simpleHash (("42 arbitrary lane").data) % 4) (DEFAULT_GRADE)
    ∧ simulateCrimeGrade (("42 arbitrary lane").data) ∈ fallbackGrades :=
  simulateCrimeGrade_hash_fallback (("42 arbitrary lane").data)
    (by decide) (by decide) (by decide) (by decide)

/-! ## Claim C4 -/

/-- C4 counterexample: `normalizeAddress` is not idempotent, and two addresses
differing only in punctuation need not normalize identically.  The source
trims before stripping punctuation, so stripping the comma of "a ," leaves the
trailing blank "a ", which a second normalization removes; "a ," and "a "
differ only in the comma yet normalize to "a " and "a"; and the underscore
(a JavaScript word character) survives normalization, so "a_" and "a" also
normalize apart. -/
theorem normalizeAddress_not_idempotent :
    normalizeAddress (("a ,").data) = ("a ").data
    ∧ normalizeAddress (("a ").data) = ("a").data
    ∧ normalizeAddress (normalizeAddress (("a ,").data)) ≠ normalizeAddress (("a ,").data)
    ∧ normalizeAddress (("a_").data) ≠ normalizeAddress (("a").data) := by
  refine ⟨by decide, by decide, by decide, by decide⟩

/-! ## Character-level lemmas for the amended C4 -/

theorem char_toNat_ofNat {n : ℕ} (h : n.isValidChar) : (Char.ofNat n).toNat = n := by
  simp [Char.ofNat, h, Char.ofNatAux, Char.toNat, UInt32.toNat]

theorem toLower_eq_self {c : Char} (h : ¬(65 ≤ c.toNat ∧ c.toNat ≤ 90)) :
    Char.toLower c = c := by
  unfold Char.toLower
  rw [if_neg (by omega)]

theorem toLower_toNat_of_upper {c : Char} (h : 65 ≤ c.toNat ∧ c.toNat ≤ 90) :
    (Char.toLower c).toNat = c.toNat + 32 := by
  unfold Char.toLower
  rw [if_pos (by omega)]
  exact char_toNat_ofNat (Or.inl (by omega))

theorem toLower_not_upper (c : Char) :
    ¬(65 ≤ (Char.toLower c).toNat ∧ (Char.toLower c).toNat ≤ 90) := by
  by_cases h : 65 ≤ c.toNat ∧ c.toNat ≤ 90
  · rw [toLower_toNat_of_upper h]
    omega
  · rw [toLower_eq_self h]
    exact h

theorem toLower_idem (c : Char) : Char.toLower (Char.toLower c) = Char.toLower c :=
  toLower_eq_self (toLower_not_upper c)

theorem isJsSpace_mem {c : Char} (h : isJsSpace c = true) : c ∈ jsWhitespaceChars := by
  unfold isJsSpace at h
  obtain ⟨b, hb, hcb⟩ := List.contains_iff_exists_mem_beq.mp h
  rw [show c = b from by simpa using hcb]
  exact hb

theorem isJsSpace_ranges {c : Char} (h : isJsSpace c = true) :
    c.toNat = 32 ∨ (9 ≤ c.toNat ∧ c.toNat ≤ 13) ∨ 160 ≤ c.toNat := by
  have hm := isJsSpace_mem h
  fin_cases hm <;> decide

theorem isJsSpace_toLower (c : Char) : isJsSpace (Char.toLower c) = isJsSpace c := by
  by_cases h : 65 ≤ c.toNat ∧ c.toNat ≤ 90
  · have hl : (Char.toLower c).toNat = c.toNat + 32 := toLower_toNat_of_upper h
    have h1 : isJsSpace (Char.toLower c) = false := by
      cases hsp : isJsSpace (Char.toLower c) with
      | false => rfl
      | true => rcases isJsSpace_ranges hsp with h' | h' | h' <;> omega
    have h2 : isJsSpace c = false := by
      cases hsp : isJsSpace c with
      | false => rfl
      | true => rcases isJsSpace_ranges hsp with h' | h' | h' <;> omega
    rw [h1, h2]
  · rw [toLower_eq_self h]

/-! ## Membership lemmas for the normalization pipeline -/

theorem mem_collapseAux {c : Char} {flag : Bool} {l : List Char}
    (h : c ∈ collapseWsAux flag l) : c = ' ' ∨ (c ∈ l ∧ isJsSpace c = false) := by
  induction l generalizing flag with
  | nil => simp [collapseWsAux] at h
  | cons a r ih =>
    by_cases ha : isJsSpace a = true
    · cases flag with
      | true =>
        simp only [collapseWsAux, ha, if_true] at h
        rcases ih h with h' | ⟨h', hsp⟩
        · exact Or.inl h'
        · exact Or.inr ⟨List.mem_cons_of_mem _ h', hsp⟩
      | false =>
        simp only [collapseWsAux, ha, if_true] at h
        rcases List.mem_cons.mp h with rfl | h'
        · exact Or.inl rfl
        · rcases ih h' with h'' | ⟨h'', hsp⟩
          · exact Or.inl h''
          · exact Or.inr ⟨List.mem_cons_of_mem _ h'', hsp⟩
    · simp only [collapseWsAux, ha, Bool.false_eq_true, if_false] at h
      rcases List.mem_cons.mp h with rfl | h'
      · exact Or.inr ⟨List.mem_cons_self _ _, by simpa using ha⟩
      · rcases ih h' with h'' | ⟨h'', hsp⟩
        · exact Or.inl h''
        · exact Or.inr ⟨List.mem_cons_of_mem _ h'', hsp⟩

theorem mem_dropTrailingWs {c : Char} {l : List Char} (h : c ∈ dropTrailingWs l) : c ∈ l := by
  induction l with
  | nil => simp [dropTrailingWs] at h
  | cons a r ih =>
    cases hr : dropTrailingWs r with
    | nil =>
      simp only [dropTrailingWs, hr] at h
      by_cases ha : isJsSpace a = true
      · simp [ha] at h
      · simp only [ha, Bool.false_eq_true, if_false] at h
        rcases List.mem_cons.mp h with rfl | h'
        · exact List.mem_cons_self _ _
        · simp at h'
    | cons d t =>
      simp only [dropTrailingWs, hr] at h
      rcases List.mem_cons.mp h with rfl | h'
      · exact List.mem_cons_self _ _
      · exact List.mem_cons_of_mem _ (ih (hr ▸ h'))

theorem mem_trimJs {c : Char} {l : List Char} (h : c ∈ trimJs l) : c ∈ l :=
  (List.dropWhile_sublist isJsSpace).subset (mem_dropTrailingWs h)

theorem normalizeAddress_chars {c : Char} {l : List Char} (h : c ∈ normalizeAddress l) :
    (isWordChar c || isJsSpace c) = true ∧ Char.toLower c = c
      ∧ (isJsSpace c = true → c = ' ') := by
  obtain ⟨hmem, hpred⟩ := List.mem_filter.mp h
  rcases mem_collapseAux hmem with rfl | ⟨hmem', hsp⟩
  · exact ⟨by decide, by decide, fun _ => rfl⟩
  · obtain ⟨d, _, hd⟩ := List.mem_map.mp hmem'
    refine ⟨hpred, ?_, fun hc => absurd hc (by simp [hsp])⟩
    rw [← hd]
    exact toLower_idem d

/-! ## Fixpoint lemmas for the normalization stages -/

theorem collapseWsAux_cons (flag : Bool) (c : Char) (rest : List Char) :
    collapseWsAux flag (c :: rest)
      = if isJsSpace c = true then
          (if flag then collapseWsAux true rest else ' ' :: collapseWsAux true rest)
        else c :: collapseWsAux false rest := rfl

theorem dropTrailingWs_cons (c : Char) (rest : List Char) :
    dropTrailingWs (c :: rest)
      = match dropTrailingWs rest with
        | [] => if isJsSpace c = true then [] else [c]
        | d :: t => c :: d :: t := rfl

theorem lowerList_eq_self {l : List Char} (h : ∀ c ∈ l, Char.toLower c = c) :
    lowerList l = l := by
  unfold lowerList
  rw [List.map_congr_left h]
  simp

theorem stripSpecial_eq_self {l : List Char}
    (h : ∀ c ∈ l, (isWordChar c || isJsSpace c) = true) : stripSpecial l = l :=
  List.filter_eq_self.mpr h

theorem dropWhile_eq_self_of_head {l : List Char}
    (h : ∀ c, l.head? = some c → isJsSpace c = false) : l.dropWhile isJsSpace = l := by
  cases l with
  | nil => rfl
  | cons a r => simp [List.dropWhile_cons, h a rfl]

theorem dropTrailingWs_eq_self {l : List Char}
    (h : ∀ c, l.getLast? = some c → isJsSpace c = false) : dropTrailingWs l = l := by
  induction l with
  | nil => rfl
  | cons a r ih =>
    cases r with
    | nil =>
      have := h a (by simp)
      simp [dropTrailingWs, this]
    | cons b t =>
      have hr : dropTrailingWs (b :: t) = b :: t :=
        ih (fun c hc => h c (by rwa [List.getLast?_cons_cons]))
      rw [dropTrailingWs_cons, hr]

theorem collapseAux_eq_self {l : List Char} (h1 : NoAdjSp l)
    (h2 : ∀ c ∈ l, isJsSpace c = true → c = ' ') :
    collapseWsAux false l = l
      ∧ ((∀ c, l.head? = some c → isJsSpace c = false) → collapseWsAux true l = l) := by
  induction l with
  | nil => exact ⟨rfl, fun _ => rfl⟩
  | cons a r ih =>
    have h1r : NoAdjSp r := by
      cases r with
      | nil => trivial
      | cons b t => exact h1.2
    have h2r : ∀ c ∈ r, isJsSpace c = true → c = ' ' :=
      fun c hc => h2 c (List.mem_cons_of_mem _ hc)
    have ihr := ih h1r h2r
    by_cases ha : isJsSpace a = true
    · have ha' : a = ' ' := h2 a (List.mem_cons_self _ _) ha
      have hrhead : ∀ c, r.head? = some c → isJsSpace c = false := by
        intro c hc
        cases r with
        | nil => simp at hc
        | cons b t =>
          have hb : b = c := by simpa using hc
          subst hb
          cases hsp : isJsSpace b with
          | false => rfl
          | true => exact absurd ⟨ha, hsp⟩ h1.1
      constructor
      · rw [collapseWsAux_cons, if_pos ha]
        simp only [Bool.false_eq_true, if_false]
        rw [ihr.2 hrhead, ha']
      · intro hhead
        exact absurd ha (by simpa using hhead a rfl)
    · constructor
      · rw [collapseWsAux_cons, if_neg (by simpa using ha), ihr.1]
      · intro _
        rw [collapseWsAux_cons, if_neg (by simpa using ha), ihr.1]

theorem collapseWs_eq_self {l : List Char} (h1 : NoAdjSp l)
    (h2 : ∀ c ∈ l, isJsSpace c = true → c = ' ') : collapseWs l = l :=
  (collapseAux_eq_self h1 h2).1

/-! ## Structure of the collapse output -/

theorem collapseAux_true_head {l : List Char} {c : Char}
    (h : (collapseWsAux true l).head? = some c) : isJsSpace c = false := by
  induction l with
  | nil => simp [collapseWsAux] at h
  | cons a r ih =>
    by_cases ha : isJsSpace a = true
    · rw [collapseWsAux_cons, if_pos ha, if_pos rfl] at h
      exact ih h
    · rw [collapseWsAux_cons, if_neg (by simpa using ha)] at h
      simp only [List.head?_cons, Option.some_inj] at h
      subst h
      simpa using ha

theorem noAdjSp_cons_of_not_space {c : Char} {X : List Char}
    (hc : isJsSpace c = false) (hX : NoAdjSp X) : NoAdjSp (c :: X) := by
  cases X with
  | nil => trivial
  | cons b t => exact ⟨fun hand => by simp [hc] at hand, hX⟩

theorem noAdjSp_cons_space {X : List Char}
    (hh : ∀ c, X.head? = some c → isJsSpace c = false) (hX : NoAdjSp X) :
    NoAdjSp (' ' :: X) := by
  cases X with
  | nil => trivial
  | cons b t => exact ⟨fun hand => by simp [hh b rfl] at hand, hX⟩

theorem noAdjSp_collapseAux (l : List Char) :
    NoAdjSp (collapseWsAux false l) ∧ NoAdjSp (collapseWsAux true l) := by
  induction l with
  | nil => exact ⟨trivial, trivial⟩
  | cons a r ih =>
    by_cases ha : isJsSpace a = true
    · constructor
      · rw [collapseWsAux_cons, if_pos ha]
        simp only [Bool.false_eq_true, if_false]
        exact noAdjSp_cons_space (fun c hc => collapseAux_true_head hc) ih.2
      · rw [collapseWsAux_cons, if_pos ha, if_pos rfl]
        exact ih.2
    · have hfix : collapseWsAux false (a :: r) = a :: collapseWsAux false r := by
        rw [collapseWsAux_cons, if_neg (by simpa using ha)]
      constructor
      · rw [hfix]
        exact noAdjSp_cons_of_not_space (by simpa using ha) ih.1
      · rw [collapseWsAux_cons, if_neg (by simpa using ha)]
        exact noAdjSp_cons_of_not_space (by simpa using ha) ih.1

theorem collapseAux_ne_nil {l : List Char} {flag : Bool}
    (h : ∃ c ∈ l, isJsSpace c = false) : collapseWsAux flag l ≠ [] := by
  induction l generalizing flag with
  | nil => simp at h
  | cons a r ih =>
    by_cases ha : isJsSpace a = true
    · have hr : ∃ c ∈ r, isJsSpace c = false := by
        obtain ⟨c, hc, hcs⟩ := h
        rcases List.mem_cons.mp hc with rfl | hc'
        · rw [ha] at hcs; cases hcs
        · exact ⟨c, hc', hcs⟩
      rw [collapseWsAux_cons, if_pos ha]
      cases flag with
      | true => simpa using ih hr
      | false => simp
    · rw [collapseWsAux_cons, if_neg (by simpa using ha)]
      simp

theorem collapseAux_false_head {l : List Char}
    (h : ∀ c, l.head? = some c → isJsSpace c = false) :
    ∀ c, (collapseWsAux false l).head? = some c → isJsSpace c = false := by
  intro c hc
  cases l with
  | nil => simp [collapseWsAux] at hc
  | cons a r =>
    have ha : isJsSpace a = false := h a rfl
    rw [collapseWsAux_cons, if_neg (by simp [ha])] at hc
    simp only [List.head?_cons, Option.some_inj] at hc
    subst hc
    exact ha

theorem collapseAux_getLast {l : List Char} {flag : Bool}
    (h : ∀ c, l.getLast? = some c → isJsSpace c = false) :
    ∀ c, (collapseWsAux flag l).getLast? = some c → isJsSpace c = false := by
  induction l generalizing flag with
  | nil => intro c hc; simp [collapseWsAux] at hc
  | cons a r ih =>
    intro c hc
    cases r with
    | nil =>
      have ha : isJsSpace a = false := h a (by simp)
      rw [collapseWsAux_cons, if_neg (by simp [ha])] at hc
      simp only [collapseWsAux] at hc
      have : a = c := by simpa using hc
      subst this
      exact ha
    | cons b t =>
      have hr : ∀ c', (b :: t).getLast? = some c' → isJsSpace c' = false :=
        fun c' hc' => h c' (by rwa [List.getLast?_cons_cons])
      have hlast := List.getLast?_eq_getLast (b :: t) (by simp)
      have hne : ∃ c' ∈ b :: t, isJsSpace c' = false :=
        ⟨_, List.getLast_mem (by simp), hr _ hlast⟩
      by_cases ha : isJsSpace a = true
      · rw [collapseWsAux_cons, if_pos ha] at hc
        cases flag with
        | true =>
          rw [if_pos rfl] at hc
          exact ih hr _ hc
        | false =>
          simp only [Bool.false_eq_true, if_false] at hc
          cases hXeq : collapseWsAux true (b :: t) with
          | nil => exact absurd hXeq (@collapseAux_ne_nil (b :: t) true hne)
          | cons y ys =>
            rw [hXeq, List.getLast?_cons_cons] at hc
            exact ih hr _ (by rw [hXeq]; exact hc)
      · rw [collapseWsAux_cons, if_neg (by simpa using ha)] at hc
        cases hXeq : collapseWsAux false (b :: t) with
        | nil => exact absurd hXeq (@collapseAux_ne_nil (b :: t) false hne)
        | cons y ys =>
          rw [hXeq, List.getLast?_cons_cons] at hc
          exact ih hr _ (by rw [hXeq]; exact hc)

/-! ## Structure of the trim output -/

theorem dropTrailingWs_getLast {l : List Char} :
    ∀ c, (dropTrailingWs l).getLast? = some c → isJsSpace c = false := by
  induction l with
  | nil => intro c hc; simp [dropTrailingWs] at hc
  | cons a r ih =>
    intro c hc
    rw [dropTrailingWs_cons] at hc
    cases hr : dropTrailingWs r with
    | nil =>
      rw [hr] at hc
      by_cases ha : isJsSpace a = true
      · rw [if_pos ha] at hc
        simp at hc
      · rw [if_neg ha] at hc
        have : a = c := by simpa using hc
        subst this
        simpa using ha
    | cons d t =>
      rw [hr, List.getLast?_cons_cons] at hc
      exact ih c (by rw [hr]; exact hc)

theorem dropTrailingWs_head {l : List Char} {c : Char}
    (h : (dropTrailingWs l).head? = some c) : l.head? = some c := by
  cases l with
  | nil => simp [dropTrailingWs] at h
  | cons a r =>
    rw [dropTrailingWs_cons] at h
    cases hr : dropTrailingWs r with
    | nil =>
      rw [hr] at h
      by_cases ha : isJsSpace a = true
      · rw [if_pos ha] at h
        simp at h
      · rw [if_neg ha] at h
        simpa using h
    | cons d t =>
      rw [hr] at h
      simpa using h

theorem head?_dropWhile_not_space {l : List Char} {c : Char}
    (h : (l.dropWhile isJsSpace).head? = some c) : isJsSpace c = false := by
  induction l with
  | nil => simp at h
  | cons a r ih =>
    by_cases ha : isJsSpace a = true
    · rw [List.dropWhile_cons_of_pos ha] at h
      exact ih h
    · rw [List.dropWhile_cons_of_neg ha] at h
      have : a = c := by simpa using h
      subst this
      simpa using ha

theorem trimJs_head {l : List Char} :
    ∀ c, (trimJs l).head? = some c → isJsSpace c = false :=
  fun _ hc => head?_dropWhile_not_space (dropTrailingWs_head hc)

theorem trimJs_getLast {l : List Char} :
    ∀ c, (trimJs l).getLast? = some c → isJsSpace c = false :=
  fun c hc => dropTrailingWs_getLast c hc

theorem trimJs_eq_self {l : List Char}
    (hh : ∀ c, l.head? = some c → isJsSpace c = false)
    (hl : ∀ c, l.getLast? = some c → isJsSpace c = false) : trimJs l = l := by
  unfold trimJs
  rw [dropWhile_eq_self_of_head hh, dropTrailingWs_eq_self hl]

/-! ## The amended C4: a second normalization pass is a fixpoint -/

theorem normalize_normalize (l : List Char) :
    normalizeAddress (normalizeAddress l)
      = collapseWs (trimJs (normalizeAddress l)) := by
  show stripSpecial (collapseWs (lowerList (trimJs (normalizeAddress l))))
      = collapseWs (trimJs (normalizeAddress l))
  rw [lowerList_eq_self (fun c hc => (normalizeAddress_chars (mem_trimJs hc)).2.1)]
  refine stripSpecial_eq_self (fun c hc => ?_)
  rcases mem_collapseAux hc with rfl | ⟨hc', _⟩
  · decide
  · exact (normalizeAddress_chars (mem_trimJs hc')).1

theorem normalize_canon_fix (l : List Char) :
    normalizeAddress (collapseWs (trimJs (normalizeAddress l)))
      = collapseWs (trimJs (normalizeAddress l)) := by
  have ht_chars : ∀ c ∈ collapseWs (trimJs (normalizeAddress l)),
      (isWordChar c || isJsSpace c) = true ∧ Char.toLower c = c
        ∧ (isJsSpace c = true → c = ' ') := by
    intro c hc
    rcases mem_collapseAux hc with rfl | ⟨hc', _⟩
    · exact ⟨by decide, by decide, fun _ => rfl⟩
    · exact normalizeAddress_chars (mem_trimJs hc')
  have ht_head : ∀ c, (collapseWs (trimJs (normalizeAddress l))).head? = some c →
      isJsSpace c = false :=
    collapseAux_false_head trimJs_head
  have ht_last : ∀ c, (collapseWs (trimJs (normalizeAddress l))).getLast? = some c →
      isJsSpace c = false :=
    collapseAux_getLast trimJs_getLast
  have ht_noadj : NoAdjSp (collapseWs (trimJs (normalizeAddress l))) :=
    (noAdjSp_collapseAux _).1
  show stripSpecial (collapseWs (lowerList (trimJs (collapseWs
      (trimJs (normalizeAddress l)))))) = collapseWs (trimJs (normalizeAddress l))
  rw [trimJs_eq_self ht_head ht_last,
    lowerList_eq_self (fun c hc => (ht_chars c hc).2.1),
    collapseWs_eq_self ht_noadj (fun c hc => (ht_chars c hc).2.2),
    stripSpecial_eq_self (fun c hc => (ht_chars c hc).1)]

/-! ## Case invariance of normalization -/

theorem dropWhile_lowerList (l : List Char) :
    (lowerList l).dropWhile isJsSpace = lowerList (l.dropWhile isJsSpace) := by
  unfold lowerList
  rw [List.dropWhile_map,
    show (isJsSpace ∘ Char.toLower) = isJsSpace from funext isJsSpace_toLower]

theorem dropTrailingWs_lowerList (l : List Char) :
    dropTrailingWs (lowerList l) = lowerList (dropTrailingWs l) := by
  induction l with
  | nil => rfl
  | cons a r ih =>
    show dropTrailingWs (Char.toLower a :: lowerList r)
        = lowerList (dropTrailingWs (a :: r))
    rw [dropTrailingWs_cons, ih, dropTrailingWs_cons]
    cases hr : dropTrailingWs r with
    | nil =>
      simp only [lowerList, List.map_nil]
      by_cases ha : isJsSpace a = true
      · rw [if_pos (by rw [isJsSpace_toLower]; exact ha), if_pos ha]
        rfl
      · rw [if_neg (by rw [isJsSpace_toLower]; exact ha), if_neg ha]
        rfl
    | cons d t => rfl

theorem trimJs_lowerList (l : List Char) : trimJs (lowerList l) = lowerList (trimJs l) := by
  unfold trimJs
  rw [dropWhile_lowerList, dropTrailingWs_lowerList]

theorem lowerList_idem (l : List Char) : lowerList (lowerList l) = lowerList l := by
  unfold lowerList
  rw [List.map_map]
  exact List.map_congr_left (fun c _ => toLower_idem c)

theorem normalizeAddress_lowerList (l : List Char) :
    normalizeAddress (lowerList l) = normalizeAddress l := by
  show stripSpecial (collapseWs (lowerList (trimJs (lowerList l))))
      = stripSpecial (collapseWs (lowerList (trimJs l)))
  rw [trimJs_lowerList, lowerList_idem]

/-! ## Whitespace-run invariance of normalization -/

theorem collapseAux_true_eq (z : List Char) :
    collapseWsAux true z = collapseWsAux false (z.dropWhile isJsSpace) := by
  induction z with
  | nil => rfl
  | cons c r ih =>
    by_cases hc : isJsSpace c = true
    · rw [collapseWsAux_cons, if_pos hc, if_pos rfl, List.dropWhile_cons_of_pos hc]
      exact ih
    · rw [collapseWsAux_cons, if_neg (by simpa using hc), List.dropWhile_cons_of_neg hc]
      rw [collapseWsAux_cons, if_neg (by simpa using hc)]

theorem dropWhile_collapseWs (l : List Char) :
    (collapseWs l).dropWhile isJsSpace = collapseWs (l.dropWhile isJsSpace) := by
  cases l with
  | nil => rfl
  | cons c r =>
    by_cases hc : isJsSpace c = true
    · show (collapseWsAux false (c :: r)).dropWhile isJsSpace = _
      rw [collapseWsAux_cons, if_pos hc]
      simp only [Bool.false_eq_true, if_false]
      rw [List.dropWhile_cons_of_pos (show isJsSpace ' ' = true by decide)]
      rw [dropWhile_eq_self_of_head (fun c' hc' => collapseAux_true_head hc')]
      rw [List.dropWhile_cons_of_pos hc]
      exact collapseAux_true_eq r
    · show (collapseWsAux false (c :: r)).dropWhile isJsSpace = _
      rw [collapseWsAux_cons, if_neg (by simpa using hc),
        List.dropWhile_cons_of_neg hc,
        List.dropWhile_cons_of_neg hc]
      show c :: collapseWsAux false r = collapseWsAux false (c :: r)
      rw [collapseWsAux_cons, if_neg (by simpa using hc)]

theorem collapseAux_false_cons_ne_nil (x : Char) (xs : List Char) :
    collapseWsAux false (x :: xs) ≠ [] := by
  by_cases hx : isJsSpace x = true
  · rw [collapseWsAux_cons, if_pos hx]
    simp
  · rw [collapseWsAux_cons, if_neg (by simpa using hx)]
    simp

theorem dropTrailingWs_collapseAux (y : List Char) :
    ∀ flag, dropTrailingWs (collapseWsAux flag y) = collapseWsAux flag (dropTrailingWs y) := by
  induction y with
  | nil => intro flag; rfl
  | cons c r ih =>
    intro flag
    by_cases hc : isJsSpace c = true
    · cases flag with
      | true =>
        have l1 : collapseWsAux true (c :: r) = collapseWsAux true r := by
          rw [collapseWsAux_cons, if_pos hc, if_pos rfl]
        rw [l1, ih true, dropTrailingWs_cons]
        cases hr : dropTrailingWs r with
        | nil => rw [if_pos hc]
        | cons d t =>
          have e : collapseWsAux true (c :: d :: t) = collapseWsAux true (d :: t) := by
            rw [collapseWsAux_cons, if_pos hc, if_pos rfl]
          exact e.symm
      | false =>
        have l1 : collapseWsAux false (c :: r) = ' ' :: collapseWsAux true r := by
          rw [collapseWsAux_cons, if_pos hc]
          rfl
        rw [l1, dropTrailingWs_cons, ih true, dropTrailingWs_cons]
        cases hr : dropTrailingWs r with
        | nil =>
          rw [if_pos hc]
          rfl
        | cons d t =>
          have hlast := List.getLast?_eq_getLast (d :: t) (by simp)
          have hne : ∃ x ∈ d :: t, isJsSpace x = false :=
            ⟨_, List.getLast_mem (by simp),
              dropTrailingWs_getLast _ (by rw [hr]; exact hlast)⟩
          have e2 : collapseWsAux false (c :: d :: t) = ' ' :: collapseWsAux true (d :: t) := by
            rw [collapseWsAux_cons, if_pos hc]
            rfl
          cases hX : collapseWsAux true (d :: t) with
          | nil => exact absurd hX (@collapseAux_ne_nil (d :: t) true hne)
          | cons z zs =>
            rw [hX] at e2
            show ' ' :: z :: zs = collapseWsAux false (c :: d :: t)
            rw [e2]
    · have l1 : collapseWsAux flag (c :: r) = c :: collapseWsAux false r := by
        rw [collapseWsAux_cons, if_neg (by simpa using hc)]
      rw [l1, dropTrailingWs_cons, ih false, dropTrailingWs_cons]
      cases hr : dropTrailingWs r with
      | nil =>
        rw [if_neg (by simpa using hc)]
        have l2 : collapseWsAux flag [c] = c :: collapseWsAux false [] := by
          rw [collapseWsAux_cons, if_neg (by simpa using hc)]
        show ([c] : List Char) = collapseWsAux flag [c]
        rw [l2]
        rfl
      | cons d t =>
        cases hX : collapseWsAux false (d :: t) with
        | nil => exact absurd hX (collapseAux_false_cons_ne_nil d t)
        | cons z zs =>
          have e3 : collapseWsAux flag (c :: d :: t) = c :: collapseWsAux false (d :: t) := by
            rw [collapseWsAux_cons, if_neg (by simpa using hc)]
          show c :: z :: zs = collapseWsAux flag (c :: d :: t)
          rw [e3, hX]

theorem trimJs_collapseWs (l : List Char) :
    trimJs (collapseWs l) = collapseWs (trimJs l) := by
  unfold trimJs
  rw [dropWhile_collapseWs]
  exact dropTrailingWs_collapseAux _ false

theorem collapseAux_lowerList (l : List Char) :
    ∀ flag, collapseWsAux flag (lowerList l) = lowerList (collapseWsAux flag l) := by
  induction l with
  | nil => intro flag; rfl
  | cons c r ih =>
    intro flag
    show collapseWsAux flag (Char.toLower c :: lowerList r) = _
    by_cases hc : isJsSpace c = true
    · rw [collapseWsAux_cons, if_pos (by rw [isJsSpace_toLower]; exact hc),
        collapseWsAux_cons, if_pos hc]
      cases flag with
      | true => rw [if_pos rfl, if_pos rfl, ih true]
      | false =>
        simp only [Bool.false_eq_true, if_false]
        rw [ih true]
        rfl
    · rw [collapseWsAux_cons, if_neg (by rw [isJsSpace_toLower]; simpa using hc),
        collapseWsAux_cons, if_neg (by simpa using hc), ih false]
      rfl

theorem collapseWs_idem (l : List Char) : collapseWs (collapseWs l) = collapseWs l := by
  refine collapseWs_eq_self (noAdjSp_collapseAux l).1 (fun c hc hsp => ?_)
  rcases mem_collapseAux hc with rfl | ⟨_, hcs⟩
  · rfl
  · rw [hsp] at hcs; cases hcs

theorem normalizeAddress_collapseWs (l : List Char) :
    normalizeAddress (collapseWs l) = normalizeAddress l := by
  show stripSpecial (collapseWs (lowerList (trimJs (collapseWs l))))
      = stripSpecial (collapseWs (lowerList (trimJs l)))
  rw [trimJs_collapseWs]
  rw [show lowerList (collapseWs (trimJs l)) = collapseWs (lowerList (trimJs l)) from
    (collapseAux_lowerList (trimJs l) false).symm]
  show stripSpecial (collapseWs (collapseWs (lowerList (trimJs l))))
      = stripSpecial (collapseWs (lowerList (trimJs l)))
  rw [collapseWs_idem]

/-- C4 (amended): normalization is not idempotent in one pass (see the
counterexample), but a second pass reaches a fixpoint — normalizing a
twice-normalized address returns it unchanged; any two addresses with the
same character-wise lowercasing (differing only in letter case) normalize to
the identical string; and any two addresses with the same whitespace-collapsed
form (differing only in the length or kind of whitespace runs) normalize to
the identical string. -/
theorem normalizeAddress_second_pass_fixpoint :
    (∀ l : List Char,
        normalizeAddress (normalizeAddress (normalizeAddress l))
          = normalizeAddress (normalizeAddress l))
    ∧ (∀ l₁ l₂ : List Char, lowerList l₁ = lowerList l₂ →
        normalizeAddress l₁ = normalizeAddress l₂)
    ∧ (∀ l₁ l₂ : List Char, collapseWs l₁ = collapseWs l₂ →
        normalizeAddress l₁ = normalizeAddress l₂) := by
  refine ⟨?_, ?_, ?_⟩
  · intro l
    rw [normalize_normalize l]
    exact normalize_canon_fix l
  · intro l₁ l₂ h
    rw [← normalizeAddress_lowerList l₁, h, normalizeAddress_lowerList l₂]
  · intro l₁ l₂ h
    rw [← normalizeAddress_collapseWs l₁, h, normalizeAddress_collapseWs l₂]

/-- Witness for the amended C4: normalizing twice stabilizes the
counterexample address, and addresses differing only in case normalize
identically. -/
theorem normalizeAddress_second_pass_fixpoint_witness :
    normalizeAddress (normalizeAddress (normalizeAddress (("a ,").data)))
        = normalizeAddress (normalizeAddress (("a ,").data))
    ∧ normalizeAddress (("12 Oak St!").data) = normalizeAddress (("12 oak st!").data)
    ∧ normalizeAddress (("12  oak　st!").data) = normalizeAddress (("12 oak st!").data) :=
  ⟨normalizeAddress_second_pass_fixpoint.1 (("a ,").data),
   normalizeAddress_second_pass_fixpoint.2.1 (("12 Oak St!").data) (("12 oak st!").data)
     (by decide),
   normalizeAddress_second_pass_fixpoint.2.2 (("12  oak　st!").data) (("12 oak st!").data)
     (by decide)⟩

end LoanApp
